import Mathlib

/- Shallow embedding of src/main.py.

   The program has two core components: an iterative repository tree walker
   (traverse_repo_iteratively) and a content extractor
   (get_file_contents_iteratively) guarded by a binary-extension denylist,
   orchestrated by analyze_repo.

   Relative paths are modelled as lists of path segments; chained
   os.path.join calls on separator-free listdir entries correspond to
   appending segments, and the flat path string is recovered by
   joinPath (String.intercalate with the separator).  The filesystem is
   modelled as exactly the read-only interface the program consumes,
   keyed by relative path (the loop keeps currentAbsolutePath =
   repo_path joined with the relative path, so absolute-path queries are
   in bijection with relative-path queries): a directory test
   (os.path.isdir), a directory listing (os.listdir; none models a
   PermissionError), a regular-file test (os.path.isfile) and file
   contents (open().read(); none models a read/decode failure). -/

structure RepoFS where
  isDir : List String → Bool
  listing : List String → Option (List String)
  isFile : List String → Bool
  content : List String → Option String

/-- Flat path string of a segment path: os.path.join(r, e) with r = "" gives
    e, otherwise r + "/" + e, so the joined string of segments is their
    intercalation with the separator. -/
def joinPath (p : List String) : String := String.intercalate ("/") p

/-- One entry of the for-loop of traverse_repo_iteratively (main.py lines
    54-64), emission effect: returns some erp when the entry's relative path
    erp is yielded, none when nothing is yielded for it.  An ignored entry is
    skipped; a directory entry is yielded only when not in dirs_visited; any
    other entry is yielded as a file. -/
def keepEntry (fs : RepoFS) (ign : List String) (visited : List (List String))
    (rel : List String) (e : String) : Option (List String) :=
  if joinPath (rel ++ [e]) ∈ ign then none
  else if fs.isDir (rel ++ [e]) then
    (if (rel ++ [e]) ∈ visited then none else some (rel ++ [e]))
  else some (rel ++ [e])

/-- One entry of the same for-loop, queue effect: returns some erp when
    (entry_path, erp) is appended to dirs_to_visit, i.e. when the entry is a
    not-yet-visited, non-ignored directory. -/
def pushEntry (fs : RepoFS) (ign : List String) (visited : List (List String))
    (rel : List String) (e : String) : Option (List String) :=
  if joinPath (rel ++ [e]) ∈ ign then none
  else if fs.isDir (rel ++ [e]) then
    (if (rel ++ [e]) ∈ visited then none else some (rel ++ [e]))
  else none

/-- Relative paths yielded while the for-loop runs over one directory's
    entries, in entry order. -/
def emittedOf (fs : RepoFS) (ign : List String) (visited : List (List String))
    (rel : List String) (entries : List String) : List (List String) :=
  entries.filterMap (keepEntry fs ign visited rel)

/-- Relative paths appended to dirs_to_visit while the for-loop runs over one
    directory's entries, in entry order. -/
def pushedOf (fs : RepoFS) (ign : List String) (visited : List (List String))
    (rel : List String) (entries : List String) : List (List String) :=
  entries.filterMap (pushEntry fs ign visited rel)

/-- The while-loop of traverse_repo_iteratively (main.py lines 45-64).  The
    queue is dirs_to_visit with the Python list's last element (the next
    pop()) at the head, so the pushes of one iteration, appended in entry
    order in Python, sit reversed in front of the remaining queue.  The
    popped relative path is added to dirs_visited before the listing is
    attempted; a listing failure (none) skips the directory and continues.
    The Nat argument bounds the number of loop iterations, since the source
    loop need not terminate on an arbitrary directory graph; the Bool is
    true when the queue emptied within the bound (the loop finished) and
    false when the bound ran out first. -/
def walkLoop (fs : RepoFS) (ign : List String) :
    Nat → List (List String) → List (List String) → List (List String) × Bool
  | _, [], _ => ([], true)
  | 0, _ :: _, _ => ([], false)
  | fuel + 1, rel :: rest, visited =>
    let visited' := rel :: visited
    match fs.listing rel with
    | none => walkLoop fs ign fuel rest visited'
    | some entries =>
      let emitted := emittedOf fs ign visited' rel entries
      let pushed := pushedOf fs ign visited' rel entries
      let r := walkLoop fs ign fuel (pushed.reverse ++ rest) visited'
      (emitted ++ r.1, r.2)

/-- A full traversal: dirs_to_visit starts as [(repo_path, "")] and
    dirs_visited empty (main.py lines 39-40). -/
def traverseFromRoot (fs : RepoFS) (ign : List String) (fuel : Nat) :
    List (List String) × Bool :=
  walkLoop fs ign fuel [[]] []

/-- The walker terminates (the while-loop finishes) when some iteration
    bound suffices. -/
def walkTerminates (fs : RepoFS) (ign : List String) : Prop :=
  ∃ fuel, (traverseFromRoot fs ign fuel).2 = true

/-- Parsing of the ignore file (main.py lines 42-43): one entry per line,
    stripped, blank lines discarded. -/
def loadIgnoreLines (contents : String) : List String :=
  ((contents.splitOn ("\n")).map String.trim).filter (fun l => !(l == ""))

/-- traverse_repo_iteratively as called with an ignore-file: the open() of
    the ignore file sits before the loop and outside any try, so a missing
    or unreadable file (modelled by none) raises out of the generator.  On
    success the walk runs with the parsed ignore list. -/
def traverse_repo_iteratively (fs : RepoFS) (ignoreFileContents : Option String)
    (fuel : Nat) : Except Unit (List (List String) × Bool) :=
  match ignoreFileContents with
  | none => Except.error ()
  | some c => Except.ok (walkLoop fs (loadIgnoreLines c) fuel [[]] [])

/-- Index of the last occurrence of a character (CPython str.rfind restricted
    to a single character, with none in place of -1). -/
def lastIdxOf (c : Char) : List Char → Option Nat
  | [] => none
  | ch :: rest =>
    match lastIdxOf c rest with
    | some j => some (j + 1)
    | none => if ch = c then some 0 else none

/-- The extension component of os.path.splitext(s) for POSIX paths
    (genericpath._splitext with sep = '/', no altsep): the suffix from the
    last '.' that lies after the last separator, unless every character
    between the basename start and that dot is itself a dot (leading dots of
    the last component are part of the root), in which case the extension is
    empty. -/
def osExtensionStr (s : String) : String :=
  let cs := s.data
  match lastIdxOf '.' cs, lastIdxOf '/' cs with
  | none, _ => ""
  | some dot, sepIdx =>
    let fnStart := match sepIdx with | none => 0 | some si => si + 1
    if dot < fnStart then ""
    else if ((cs.drop fnStart).take (dot - fnStart)).any (fun ch => ch != '.') then
      String.mk (cs.drop dot)
    else ""

/-- The final path segment of a flat path string (everything after the last
    separator). -/
def finalSegment (s : String) : List Char :=
  match lastIdxOf '/' s.data with
  | none => s.data
  | some si => s.data.drop (si + 1)

/-- Extension as the specification words it: the substring of the final path
    segment starting at its last '.' (including the dot), and the empty
    string when the segment contains no '.'. -/
def specExtensionStr (s : String) : String :=
  match lastIdxOf '.' (finalSegment s) with
  | none => ""
  | some i => String.mk ((finalSegment s).drop i)

/-- Lowercasing of a string, character by character (for comparing an
    extracted extension with the all-lowercase denylist). -/
def lowerStr (s : String) : String := String.mk (s.data.map Char.toLower)

/-- The fixed binary-extension denylist of get_file_contents_iteratively
    (main.py lines 78-153), in source order. -/
def binary_extensions : List String :=
  [".exe", ".dll", ".bin", ".dat", ".img", ".iso", ".pdf",
   ".avi", ".mp4", ".mov", ".mkv", ".wmv", ".flv", ".mpeg", ".mpg", ".m4v",
   ".3gp", ".webm", ".ts", ".mts", ".m2ts", ".vob", ".ogg", ".ogv", ".divx",
   ".xvid",
   ".mp3", ".wav", ".zip", ".rar", ".tar", ".gz", ".7z",
   ".jpg", ".jpeg", ".jpe", ".jif", ".jfif", ".jfi", ".png", ".gif", ".bmp",
   ".dib", ".tif", ".tiff", ".webp", ".svg", ".svgz", ".ico", ".jxr", ".wdp",
   ".hdp", ".jp2", ".j2k", ".jpf", ".jpx", ".jpm", ".mj2",
   ".otf", ".ttf", ".woff", ".woff2", ".eot", ".pfa", ".pfb", ".otc", ".ttc",
   ".dfont"]

/-- Per-path body of the extractor loop (main.py lines 155-167): a path
    whose splitext extension is in the denylist is skipped; otherwise a path
    that is not a regular file is skipped silently; otherwise the file is
    read, a read failure (none) is logged and skipped, and a successful read
    yields (path, contents). -/
def extractOne (fs : RepoFS) (p : List String) : Option (List String × String) :=
  if osExtensionStr (joinPath p) ∈ binary_extensions then none
  else if fs.isFile p then
    match fs.content p with
    | some c => some (p, c)
    | none => none
  else none

/-- The extractor applied to a list of walker-emitted paths, in order. -/
def extractFrom (fs : RepoFS) (paths : List (List String)) :
    List (List String × String) :=
  paths.filterMap (extractOne fs)

/-- get_file_contents_iteratively over an already-parsed ignore list: it
    drives a fresh traversal and filters it per path. -/
def get_file_contents (fs : RepoFS) (ign : List String) (fuel : Nat) :
    List (List String × String) :=
  extractFrom fs (traverseFromRoot fs ign fuel).1

/-- get_file_contents_iteratively as called with an ignore file: the inner
    fresh traversal re-opens the ignore file, so a missing or unreadable
    ignore file raises out of the extractor as well. -/
def get_file_contents_iteratively (fs : RepoFS)
    (ignoreFileContents : Option String) (fuel : Nat) :
    Except Unit (List (List String × String)) :=
  match ignoreFileContents with
  | none => Except.error ()
  | some c => Except.ok (get_file_contents fs (loadIgnoreLines c) fuel)

/-- The repository-structure block built by analyze_repo (main.py lines
    189-191): every yielded relative path followed by a newline. -/
def structureString (paths : List (List String)) : String :=
  String.join (paths.map (fun p => joinPath p ++ "\n"))

/-- The file-contents block built by analyze_repo (main.py lines 194-196). -/
def contentsString (pairs : List (List String × String)) : String :=
  String.join (pairs.map (fun pc => "File: " ++ joinPath pc.1 ++ "\nContent:\n" ++ pc.2 ++ "\n\n"))

/-- The traversal-dependent part of analyze_repo (main.py lines 170-200): one
    walker run building the structure listing, then an independent extractor
    run building the contents dump.  An ignore-file failure in either run
    propagates (analyze_repo catches nothing; the caller's try sits outside). -/
def analyze_repo (fs : RepoFS) (ignoreFileContents : Option String)
    (fuel : Nat) : Except Unit (String × String) :=
  match traverse_repo_iteratively fs ignoreFileContents fuel with
  | Except.error e => Except.error e
  | Except.ok r =>
    match get_file_contents_iteratively fs ignoreFileContents fuel with
    | Except.error e => Except.error e
    | Except.ok pairs => Except.ok (structureString r.1, contentsString pairs)

/-- True when the extractor output contains a pair for the given path. -/
def emitsContentFor (l : List (List String × String)) (p : List String) : Bool :=
  l.any (fun pc => pc.1 == p)

/-- A filesystem where every directory listing returns nodup entry names, as
    os.listdir guarantees. -/
def entriesNodup (fs : RepoFS) : Prop :=
  ∀ p es, fs.listing p = some es → es.Nodup

/-- Chains of pushable directories: ReachFrom fs ign r q holds when the
    walker, having popped r, can reach directory q through child pushes
    (each step a listed, non-ignored directory entry). -/
inductive ReachFrom (fs : RepoFS) (ign : List String) :
    List String → List String → Prop where
  | refl (q : List String) : ReachFrom fs ign q q
  | step {r q : List String} {es : List String} {e : String} :
      ReachFrom fs ign r q → fs.listing q = some es → e ∈ es →
      joinPath (q ++ [e]) ∉ ign → fs.isDir (q ++ [e]) = true →
      ReachFrom fs ign r (q ++ [e])

/-- Directories reachable from the root through child pushes. -/
def Reach (fs : RepoFS) (ign : List String) (q : List String) : Prop :=
  ReachFrom fs ign [] q

/-- Specification-side characterisation of an emitted path: a listed,
    non-ignored entry of a reachable directory. -/
def EmitSpec (fs : RepoFS) (ign : List String) (p : List String) : Prop :=
  ∃ q es e, Reach fs ign q ∧ fs.listing q = some es ∧ e ∈ es ∧
    p = q ++ [e] ∧ joinPath p ∉ ign

/-- Invariants of the walker state reachable from the initial state: queue
    elements are pairwise prefix-free and duplicate-free, no queue element is
    visited, and no strict descendant of a queue element is visited. -/
def WalkInv (queue visited : List (List String)) : Prop :=
  (∀ q1 ∈ queue, ∀ q2 ∈ queue, q1 <+: q2 → q1 = q2) ∧
  queue.Nodup ∧
  (∀ q ∈ queue, q ∉ visited) ∧
  (∀ q ∈ queue, ∀ p, q <+: p → q ≠ p → p ∉ visited)

/-- Number of universe elements not yet visited; the termination measure. -/
def unvisitedCount (U visited : List (List String)) : Nat :=
  (U.filter (fun x => decide (x ∉ visited))).length

/-- Position of the first occurrence of a path in an emission list (length of
    the list when absent). -/
def firstIdx (p : List String) : List (List String) → Nat
  | [] => 0
  | a :: l => if a = p then 0 else firstIdx p l + 1

/- Concrete filesystems used as witnesses and counterexamples. -/

/-- The worked example of the specification: a.txt ("hi"), b.png (binary),
    sub/c.txt ("yo"). -/
def exampleFS : RepoFS where
  isDir := fun p => decide (p = [] ∨ p = ["sub"])
  listing := fun p =>
    if p = [] then some ["a.txt", "b.png", "sub"]
    else if p = ["sub"] then some ["c.txt"]
    else none
  isFile := fun p =>
    decide (p = ["a.txt"] ∨ p = ["b.png"] ∨ p = ["sub", "c.txt"])
  content := fun p =>
    if p = ["a.txt"] then some "hi"
    else if p = ["sub", "c.txt"] then some "yo"
    else none

/-- A root containing a single directory d. -/
def fsVisited : RepoFS where
  isDir := fun p => decide (p = [] ∨ p = ["d"])
  listing := fun p =>
    if p = [] then some ["d"]
    else if p = ["d"] then some []
    else none
  isFile := fun _ => false
  content := fun _ => none

/-- A directory graph with a symbolic link back to an ancestor: the root
    contains directory entry a, and a resolves back to the root, so every
    path of the form a/a/.../a exists, is a directory, and lists ["a"]
    again.  The underlying directory inode graph is finite (one real
    directory). -/
def cycFS : RepoFS where
  isDir := fun _ => true
  listing := fun _ => some ["a"]
  isFile := fun _ => false
  content := fun _ => none

/-- A root containing only the dotfile .gitignore. -/
def fsDotfile : RepoFS where
  isDir := fun p => decide (p = [])
  listing := fun p => if p = [] then some [".gitignore"] else none
  isFile := fun p => decide (p = [".gitignore"])
  content := fun p => if p = [".gitignore"] then some "x" else none

/-- A root containing only IMAGE.PNG, an upper-case-extension file. -/
def fsUpper : RepoFS where
  isDir := fun p => decide (p = [])
  listing := fun p => if p = [] then some ["IMAGE.PNG"] else none
  isFile := fun p => decide (p = ["IMAGE.PNG"])
  content := fun p => if p = ["IMAGE.PNG"] then some "data" else none

/-- A root with directories d and s, where listing d fails with a
    permissions error and s contains x.txt. -/
def fsPerm : RepoFS where
  isDir := fun p => decide (p = [] ∨ p = ["d"] ∨ p = ["s"])
  listing := fun p =>
    if p = ["d"] then none
    else if p = [] then some ["d", "s"]
    else if p = ["s"] then some ["x.txt"]
    else none
  isFile := fun p => decide (p = ["s", "x.txt"])
  content := fun p => if p = ["s", "x.txt"] then some "t" else none

/-- The same filesystem with the permissions error repaired: listing d now
    succeeds with one entry y.txt; everything else is unchanged. -/
def fsPermOk : RepoFS where
  isDir := fun p => decide (p = [] ∨ p = ["d"] ∨ p = ["s"])
  listing := fun p =>
    if p = ["d"] then some ["y.txt"]
    else if p = [] then some ["d", "s"]
    else if p = ["s"] then some ["x.txt"]
    else none
  isFile := fun p => decide (p = ["s", "x.txt"] ∨ p = ["d", "y.txt"])
  content := fun p => if p = ["s", "x.txt"] then some "t" else none

/-- A root whose listing is empty: minimal filesystem for the termination
    witness. -/
def fsEmptyRoot : RepoFS where
  isDir := fun p => decide (p = [])
  listing := fun p => if p = [] then some [] else none
  isFile := fun _ => false
  content := fun _ => none

/- Basic equation lemmas for walkLoop. -/

theorem walkLoop_nil (fs : RepoFS) (ign : List String) (fuel : Nat)
    (visited : List (List String)) :
    walkLoop fs ign fuel [] visited = ([], true) := by
  cases fuel <;> rfl

theorem walkLoop_zero (fs : RepoFS) (ign : List String) (rel : List String)
    (rest visited : List (List String)) :
    walkLoop fs ign 0 (rel :: rest) visited = ([], false) := rfl

theorem walkLoop_succ_none (fs : RepoFS) (ign : List String) (fuel : Nat)
    (rel : List String) (rest visited : List (List String))
    (h : fs.listing rel = none) :
    walkLoop fs ign (fuel + 1) (rel :: rest) visited =
      walkLoop fs ign fuel rest (rel :: visited) := by
  simp [walkLoop, h]

theorem walkLoop_succ_some (fs : RepoFS) (ign : List String) (fuel : Nat)
    (rel : List String) (rest visited : List (List String)) (es : List String)
    (h : fs.listing rel = some es) :
    walkLoop fs ign (fuel + 1) (rel :: rest) visited =
      (emittedOf fs ign (rel :: visited) rel es ++
        (walkLoop fs ign fuel
          ((pushedOf fs ign (rel :: visited) rel es).reverse ++ rest)
          (rel :: visited)).1,
       (walkLoop fs ign fuel
          ((pushedOf fs ign (rel :: visited) rel es).reverse ++ rest)
          (rel :: visited)).2) := by
  simp [walkLoop, h]

/- Characterisation of the per-entry effects. -/

theorem keepEntry_eq_some {fs : RepoFS} {ign : List String}
    {visited : List (List String)} {rel : List String} {e : String}
    {p : List String} :
    keepEntry fs ign visited rel e = some p ↔
      p = rel ++ [e] ∧ joinPath (rel ++ [e]) ∉ ign ∧
        (fs.isDir (rel ++ [e]) = true → (rel ++ [e]) ∉ visited) := by
  unfold keepEntry
  split_ifs with h1 h2 h3
  · simp [h1]
  · simp [h1, h2, h3]
  · simp only [Option.some.injEq]
    constructor
    · intro h
      exact ⟨h.symm, h1, fun _ => h3⟩
    · intro h
      exact h.1.symm
  · simp only [Option.some.injEq]
    constructor
    · intro h
      refine ⟨h.symm, h1, fun hd => absurd hd ?_⟩
      simp [h2]
    · intro h
      exact h.1.symm

theorem pushEntry_eq_some {fs : RepoFS} {ign : List String}
    {visited : List (List String)} {rel : List String} {e : String}
    {p : List String} :
    pushEntry fs ign visited rel e = some p ↔
      p = rel ++ [e] ∧ joinPath (rel ++ [e]) ∉ ign ∧
        fs.isDir (rel ++ [e]) = true ∧ (rel ++ [e]) ∉ visited := by
  unfold pushEntry
  split_ifs with h1 h2 h3
  · simp [h1]
  · simp [h1, h2, h3]
  · simp only [Option.some.injEq]
    constructor
    · intro h
      exact ⟨h.symm, h1, h2, h3⟩
    · intro h
      exact h.1.symm
  · simp [h1, h2]

theorem mem_emittedOf {fs : RepoFS} {ign : List String}
    {visited : List (List String)} {rel : List String} {es : List String}
    {p : List String} :
    p ∈ emittedOf fs ign visited rel es ↔
      ∃ e, e ∈ es ∧ p = rel ++ [e] ∧ joinPath p ∉ ign ∧
        (fs.isDir p = true → p ∉ visited) := by
  unfold emittedOf
  rw [List.mem_filterMap]
  constructor
  · rintro ⟨e, he, hk⟩
    rcases keepEntry_eq_some.1 hk with ⟨hp, hign, hdir⟩
    exact ⟨e, he, hp, hp ▸ hign, hp ▸ hdir⟩
  · rintro ⟨e, he, hp, hign, hdir⟩
    exact ⟨e, he, keepEntry_eq_some.2 ⟨hp, hp ▸ hign, hp ▸ hdir⟩⟩

theorem mem_pushedOf {fs : RepoFS} {ign : List String}
    {visited : List (List String)} {rel : List String} {es : List String}
    {p : List String} :
    p ∈ pushedOf fs ign visited rel es ↔
      ∃ e, e ∈ es ∧ p = rel ++ [e] ∧ joinPath p ∉ ign ∧
        fs.isDir p = true ∧ p ∉ visited := by
  unfold pushedOf
  rw [List.mem_filterMap]
  constructor
  · rintro ⟨e, he, hk⟩
    rcases pushEntry_eq_some.1 hk with ⟨hp, hign, hdir, hvis⟩
    exact ⟨e, he, hp, hp ▸ hign, hp ▸ hdir, hp ▸ hvis⟩
  · rintro ⟨e, he, hp, hign, hdir, hvis⟩
    exact ⟨e, he, pushEntry_eq_some.2 ⟨hp, hp ▸ hign, hp ▸ hdir, hp ▸ hvis⟩⟩

theorem pushedOf_subset_emittedOf {fs : RepoFS} {ign : List String}
    {visited : List (List String)} {rel : List String} {es : List String}
    {p : List String} (h : p ∈ pushedOf fs ign visited rel es) :
    p ∈ emittedOf fs ign visited rel es := by
  rcases mem_pushedOf.1 h with ⟨e, he, hp, hign, hdir, hvis⟩
  exact mem_emittedOf.2 ⟨e, he, hp, hign, fun _ => hvis⟩

/- Prefix helpers. -/

theorem prefix_snoc_cases {α : Type} {q l : List α} {a : α}
    (h : q <+: l ++ [a]) : q = l ++ [a] ∨ q <+: l := by
  rcases Nat.lt_or_ge q.length (l ++ [a]).length with hl | hl
  · right
    have hq : q.length ≤ l.length := by
      have := hl
      simp only [List.length_append, List.length_singleton] at this
      omega
    exact List.prefix_of_prefix_length_le h (List.prefix_append l [a]) hq
  · left
    exact List.IsPrefix.eq_of_length h (Nat.le_antisymm h.length_le hl)

theorem dropLast_snoc {α : Type} (l : List α) (a : α) :
    (l ++ [a]).dropLast = l := by simp

/- Soundness of the walker against the reachability specification: every
   emitted path is a listed, non-ignored entry of a reachable directory. -/

theorem walkLoop_sound (fs : RepoFS) (ign : List String) :
    ∀ fuel queue visited, (∀ r ∈ queue, Reach fs ign r) →
      ∀ p ∈ (walkLoop fs ign fuel queue visited).1, EmitSpec fs ign p := by
  intro fuel
  induction fuel with
  | zero =>
    intro queue visited _ p hp
    cases queue with
    | nil => simp [walkLoop_nil] at hp
    | cons rel rest => simp [walkLoop_zero] at hp
  | succ n ih =>
    intro queue visited hreach p hp
    cases queue with
    | nil => simp [walkLoop_nil] at hp
    | cons rel rest =>
      have hrel : Reach fs ign rel := hreach rel (List.mem_cons_self rel rest)
      cases hls : fs.listing rel with
      | none =>
        rw [walkLoop_succ_none fs ign n rel rest visited hls] at hp
        exact ih rest (rel :: visited)
          (fun r hr => hreach r (List.mem_cons_of_mem rel hr)) p hp
      | some es =>
        rw [walkLoop_succ_some fs ign n rel rest visited es hls] at hp
        rcases List.mem_append.1 hp with hem | hrec
        · rcases mem_emittedOf.1 hem with ⟨e, he, hpe, hign, _⟩
          exact ⟨rel, es, e, hrel, hls, he, hpe, hign⟩
        · refine ih _ (rel :: visited) ?_ p hrec
          intro r hr
          rcases List.mem_append.1 hr with hpu | hre
          · rw [List.mem_reverse] at hpu
            rcases mem_pushedOf.1 hpu with ⟨e, he, hpe, hign, hdir, _⟩
            exact hpe ▸ ReachFrom.step hrel hls he (hpe ▸ hign) (hpe ▸ hdir)
          · exact hreach r (List.mem_cons_of_mem rel hre)

/-- Soundness from the initial state. -/
theorem traverse_sound (fs : RepoFS) (ign : List String) (fuel : Nat)
    (p : List String) (hp : p ∈ (traverseFromRoot fs ign fuel).1) :
    EmitSpec fs ign p :=
  walkLoop_sound fs ign fuel [[]] []
    (by
      intro r hr
      have : r = [] := by simpa using hr
      exact this ▸ ReachFrom.refl []) p hp

/- Chain lemmas about reachability. -/

theorem reachFrom_isPre {fs : RepoFS} {ign : List String} {r q : List String}
    (h : ReachFrom fs ign r q) : r <+: q := by
  induction h with
  | refl => exact List.prefix_refl _
  | step _ _ _ _ _ ih => exact ih.trans (List.prefix_append _ _)

/-- Every nonempty prefix of a reachable directory was itself stepped into as
    a non-ignored entry, so its flat path is not on the ignore list. -/
theorem reach_not_ignored {fs : RepoFS} {ign : List String} {q : List String}
    (h : Reach fs ign q) : ∀ r, r <+: q → r ≠ [] → joinPath r ∉ ign := by
  induction h with
  | refl =>
    intro r hr hne
    exact absurd (List.prefix_nil.1 hr) hne
  | step _ _ _ hign _ ih =>
    intro r hr hne
    rcases prefix_snoc_cases hr with he | hpre
    · exact he ▸ hign
    · exact ih r hpre hne

/-- Every proper prefix of a reachable directory had its listing read
    successfully (the chain stepped out of it). -/
theorem reach_listed {fs : RepoFS} {ign : List String} {q : List String}
    (h : Reach fs ign q) : ∀ r, r <+: q → r ≠ q → ∃ es, fs.listing r = some es := by
  induction h with
  | refl =>
    intro r hr hne
    exact absurd (List.prefix_nil.1 hr) hne
  | @step q0 es0 e0 hre hls hmem hign hdir ih =>
    intro r hr hne
    rcases prefix_snoc_cases hr with he | hpre
    · exact absurd he hne
    · by_cases hrq : r = q0
      · exact hrq ▸ ⟨es0, hls⟩
      · exact ih r hpre hrq

/-- Every prefix of a reachable directory is reachable. -/
theorem reach_of_pre {fs : RepoFS} {ign : List String} {q : List String}
    (h : Reach fs ign q) : ∀ r, r <+: q → Reach fs ign r := by
  induction h with
  | refl =>
    intro r hr
    rw [List.prefix_nil.1 hr]
    exact ReachFrom.refl []
  | step hre hls hmem hign hdir ih =>
    intro r hr
    rcases prefix_snoc_cases hr with he | hpre
    · exact he ▸ ReachFrom.step (by assumption) hls hmem hign hdir
    · exact ih r hpre

/-- C1.  Subtree pruning: in any traversal from the initial state, for every
    nonempty ignore-list entry E, no emitted relative path has any prefix
    (itself included) whose flat path equals E; hence no emitted path equals
    E and no emitted path lies inside the subtree of a directory whose
    relative path is E. -/
theorem c1_subtree_pruning (fs : RepoFS) (ign : List String) (fuel : Nat)
    (E : String) (p q : List String) (hE : E ∈ ign) (hEn : E ≠ "")
    (hp : p ∈ (traverseFromRoot fs ign fuel).1) (hq : q <+: p) :
    joinPath q ≠ E := by
  rcases traverse_sound fs ign fuel p hp with ⟨par, es, e, hre, hls, he, hpe, hpig⟩
  intro hqE
  rcases prefix_snoc_cases (hpe ▸ hq) with hqp | hqpar
  · apply hpig
    rw [hpe, ← hqp, hqE]
    exact hE
  · by_cases hqnil : q = []
    · apply hEn
      rw [← hqE, hqnil]
      rfl
    · exact reach_not_ignored hre q hqpar hqnil (hqE ▸ hE)

/-- Witness for C1 at the specification's worked example: with ignore entry
    "sub", the emitted path a.txt is not the ignored entry. -/
theorem c1_witness : joinPath ["a.txt"] ≠ "sub" :=
  c1_subtree_pruning exampleFS ["sub"] 3 "sub" ["a.txt"] ["a.txt"]
    (by decide) (by decide) (by decide) (by decide)

/-- C2 counterexample.  A walker state whose visited set already contains the
    directory entry d: popping the root lists entry d, which is a directory
    and already visited; the loop (main.py lines 59-64) then yields nothing
    for it — the claim's expected emission of d as a plain path does not
    happen — and the traversal finishes with an empty output. -/
theorem c2_counterexample :
    (["d"] : List String) ∉ (walkLoop fsVisited [] 3 [[]] [["d"]]).1 ∧
    (walkLoop fsVisited [] 3 [[]] [["d"]]).2 = true := by decide

/-- C2 amended.  A directory entry whose relative path is already in the
    visited set when it is encountered is skipped entirely: it is neither
    yielded nor pushed onto the work queue (the else branch of main.py line
    63 applies only to non-directory entries). -/
theorem c2_visited_dir_skipped (fs : RepoFS) (ign : List String)
    (visited : List (List String)) (rel : List String) (e : String)
    (es : List String) (hdir : fs.isDir (rel ++ [e]) = true)
    (hvis : (rel ++ [e]) ∈ visited) :
    (rel ++ [e]) ∉ emittedOf fs ign visited rel es ∧
    (rel ++ [e]) ∉ pushedOf fs ign visited rel es := by
  constructor
  · intro h
    rcases mem_emittedOf.1 h with ⟨e', _, _, _, hd⟩
    exact hd hdir hvis
  · intro h
    rcases mem_pushedOf.1 h with ⟨e', _, _, _, _, hv⟩
    exact hv hvis

/-- Witness for C2's amended statement at the concrete counterexample
    state. -/
theorem c2_witness :
    (["d"] : List String) ∉ emittedOf fsVisited [] [["d"]] [] ["d"] ∧
    (["d"] : List String) ∉ pushedOf fsVisited [] [["d"]] [] ["d"] :=
  c2_visited_dir_skipped fsVisited [] [["d"]] [] "d" ["d"] (by decide) (by decide)

/-- C9.  A missing or unreadable ignore file (modelled by none) makes the
    walker raise before emitting anything, and the failure propagates
    through the extractor and the analyzer: all three produce the error, not
    a result. -/
theorem c9_ignore_file_error_fatal (fs : RepoFS) (fuel : Nat) :
    traverse_repo_iteratively fs none fuel = Except.error () ∧
    get_file_contents_iteratively fs none fuel = Except.error () ∧
    analyze_repo fs none fuel = Except.error () :=
  ⟨rfl, rfl, rfl⟩

/-- C4 counterexample.  The dot-leading file .gitignore is emitted by the
    walker, but the extension the extractor tests (os.path.splitext) is the
    empty string, while the specification's last-dot rule would give
    ".gitignore". -/
theorem c4_counterexample :
    [".gitignore"] ∈ (traverseFromRoot fsDotfile [] 2).1 ∧
    osExtensionStr (joinPath [".gitignore"]) = "" ∧
    specExtensionStr (joinPath [".gitignore"]) = ".gitignore" := by decide

/-- The last occurrence in an appended list: the last occurrence in the
    right part shifted by the left part's length when one exists, otherwise
    the last occurrence in the left part. -/
theorem lastIdxOf_append (c : Char) (l1 l2 : List Char) :
    lastIdxOf c (l1 ++ l2) =
      match lastIdxOf c l2 with
      | some j => some (l1.length + j)
      | none => lastIdxOf c l1 := by
  induction l1 with
  | nil =>
    simp only [List.nil_append, List.length_nil]
    cases h : lastIdxOf c l2 with
    | some j => simp
    | none => rfl
  | cons ch l1 ih =>
    simp only [List.cons_append]
    show (match lastIdxOf c (l1 ++ l2) with
      | some j => some (j + 1)
      | none => if ch = c then some 0 else none) = _
    rw [ih]
    cases h : lastIdxOf c l2 with
    | some j =>
      show some (l1.length + j + 1) = some ((ch :: l1).length + j)
      simp only [List.length_cons]
      congr 1
      omega
    | none => rfl

theorem lastIdxOf_lt_length {c : Char} {l : List Char} {k : Nat}
    (h : lastIdxOf c l = some k) : k < l.length := by
  induction l generalizing k with
  | nil => cases h
  | cons ch rest ih =>
    unfold lastIdxOf at h
    cases hr : lastIdxOf c rest with
    | some j =>
      rw [hr] at h
      cases h
      simp only [List.length_cons]
      exact Nat.succ_lt_succ (ih hr)
    | none =>
      rw [hr] at h
      split_ifs at h with hc
      cases h
      simp

/-- C4 amended.  For every path string, the extension the extractor tests
    (os.path.splitext) is determined by the final path segment alone: it
    equals the substring of the segment from its last dot (the
    specification's rule) whenever some character of the segment before that
    dot is not itself a dot, and it is the empty string when the characters
    before the last dot are all dots (e.g. ".gitignore") or when the segment
    contains no dot. -/
theorem c4_extension_rule (s : String) :
    osExtensionStr s =
      match lastIdxOf '.' (finalSegment s) with
      | none => ""
      | some i =>
        if ((finalSegment s).take i).any (fun ch => ch != '.') then
          specExtensionStr s
        else "" := by
  unfold osExtensionStr specExtensionStr finalSegment
  dsimp only
  cases hsep : lastIdxOf '/' s.data with
  | none =>
    cases hdot : lastIdxOf '.' s.data with
    | none => rfl
    | some dot =>
      dsimp only
      rw [if_neg (Nat.not_lt_zero dot)]
      simp only [List.drop_zero, Nat.sub_zero]
  | some si =>
    have hsplit : s.data.take (si + 1) ++ s.data.drop (si + 1) = s.data :=
      List.take_append_drop (si + 1) s.data
    have happ := lastIdxOf_append '.' (s.data.take (si + 1)) (s.data.drop (si + 1))
    rw [hsplit] at happ
    have hlen : (s.data.take (si + 1)).length = si + 1 := by
      rw [List.length_take]
      have hsilt : si < s.data.length := lastIdxOf_lt_length hsep
      omega
    cases hdot2 : lastIdxOf '.' (s.data.drop (si + 1)) with
    | none =>
      rw [hdot2] at happ
      dsimp only at happ
      cases hdot : lastIdxOf '.' (s.data.take (si + 1)) with
      | none =>
        rw [hdot] at happ
        rw [happ]
      | some k =>
        rw [hdot] at happ
        have hk : k < si + 1 := by
          have hkl := lastIdxOf_lt_length hdot
          rw [hlen] at hkl
          exact hkl
        rw [happ]
        dsimp only
        rw [if_pos hk]
    | some j =>
      rw [hdot2] at happ
      dsimp only at happ
      rw [hlen] at happ
      rw [happ]
      dsimp only
      rw [if_neg (by omega : ¬ si + 1 + j < si + 1)]
      have hsub : si + 1 + j - (si + 1) = j := by omega
      rw [hsub]
      have hdd : (s.data.drop (si + 1)).drop j = s.data.drop (si + 1 + j) := by
        rw [List.drop_drop]
      rw [hdd]

/-- C5.  Denylist matching is case-sensitive: a walker-emitted file whose
    extension is not itself in the (all-lowercase) denylist — even when its
    lowercasing is — is not skipped as binary: the extractor proceeds to the
    regular-file check and the read, and emits the (path, contents) pair. -/
theorem c5_case_sensitive_denylist (fs : RepoFS) (ign : List String)
    (fuel : Nat) (p : List String) (c : String)
    (hmem : p ∈ (traverseFromRoot fs ign fuel).1)
    (hlow : lowerStr (osExtensionStr (joinPath p)) ∈ binary_extensions)
    (hnot : osExtensionStr (joinPath p) ∉ binary_extensions)
    (hfile : fs.isFile p = true) (hcont : fs.content p = some c) :
    (p, c) ∈ get_file_contents fs ign fuel := by
  unfold get_file_contents extractFrom
  exact List.mem_filterMap.2 ⟨p, hmem, by simp [extractOne, hnot, hfile, hcont]⟩

/-- Witness for C5: IMAGE.PNG has extension ".PNG", whose lowercasing ".png"
    is denylisted, yet its contents are extracted. -/
theorem c5_witness : (["IMAGE.PNG"], "data") ∈ get_file_contents fsUpper [] 2 :=
  c5_case_sensitive_denylist fsUpper [] 2 ["IMAGE.PNG"] "data"
    (by decide) (by decide) (by decide) (by decide) (by decide)

theorem extractOne_fst {fs : RepoFS} {p : List String}
    {pc : List String × String} (h : extractOne fs p = some pc) : pc.1 = p := by
  unfold extractOne at h
  split_ifs at h with h1 h2
  · cases hc : fs.content p with
    | none => rw [hc] at h; cases h
    | some c =>
      rw [hc] at h
      cases h
      rfl

/-- C6.  A walker-emitted path whose tested extension is on the binary
    denylist stays in the tree listing (the walker's output), but the
    extractor emits no (path, contents) pair for it. -/
theorem c6_binary_listed_not_extracted (fs : RepoFS) (ign : List String)
    (fuel : Nat) (p : List String)
    (hmem : p ∈ (traverseFromRoot fs ign fuel).1)
    (hbin : osExtensionStr (joinPath p) ∈ binary_extensions) :
    p ∈ (traverseFromRoot fs ign fuel).1 ∧
    emitsContentFor (get_file_contents fs ign fuel) p = false := by
  refine ⟨hmem, ?_⟩
  unfold emitsContentFor
  rw [List.any_eq_false]
  intro pc hpc
  rcases List.mem_filterMap.1 hpc with ⟨a, _, hext⟩
  have hfst : pc.1 = a := extractOne_fst hext
  intro heq
  have hpe : pc.1 = p := by
    exact beq_iff_eq.1 heq
  rw [hpe] at hfst
  rw [← hfst] at hext
  simp [extractOne, hbin] at hext

/-- Witness for C6: b.png is listed by the walker but yields no content
    pair. -/
theorem c6_witness :
    ["b.png"] ∈ (traverseFromRoot exampleFS ["sub"] 3).1 ∧
    emitsContentFor (get_file_contents exampleFS ["sub"] 3) ["b.png"] = false :=
  c6_binary_listed_not_extracted exampleFS ["sub"] 3 ["b.png"]
    (by decide) (by decide)

/- Queue invariants and their preservation. -/

theorem snoc_length_absurd {α : Type} {l : List α} {a : α}
    (h : l = l ++ [a]) : False := by
  have := congrArg List.length h
  simp at this

theorem nodup_pushedOf {fs : RepoFS} {ign : List String}
    {visited : List (List String)} {rel : List String} {es : List String}
    (hes : es.Nodup) : (pushedOf fs ign visited rel es).Nodup := by
  apply List.Nodup.filterMap ?_ hes
  intro a a' b hb hb'
  rw [Option.mem_def] at hb hb'
  rcases pushEntry_eq_some.1 hb with ⟨h1, -, -, -⟩
  rcases pushEntry_eq_some.1 hb' with ⟨h2, -, -, -⟩
  have h3 : rel ++ [a] = rel ++ [a'] := by rw [← h1, ← h2]
  simpa using h3

theorem nodup_emittedOf {fs : RepoFS} {ign : List String}
    {visited : List (List String)} {rel : List String} {es : List String}
    (hes : es.Nodup) : (emittedOf fs ign visited rel es).Nodup := by
  apply List.Nodup.filterMap ?_ hes
  intro a a' b hb hb'
  rw [Option.mem_def] at hb hb'
  rcases keepEntry_eq_some.1 hb with ⟨h1, -, -⟩
  rcases keepEntry_eq_some.1 hb' with ⟨h2, -, -⟩
  have h3 : rel ++ [a] = rel ++ [a'] := by rw [← h1, ← h2]
  simpa using h3

theorem walkInv_init : WalkInv [[]] [] := by
  refine ⟨?_, ?_, ?_, ?_⟩
  · intro q1 h1 q2 h2 _
    have e1 : q1 = [] := by simpa using h1
    have e2 : q2 = [] := by simpa using h2
    rw [e1, e2]
  · simp
  · intro q _
    simp
  · intro q _ p _ _
    simp

theorem walkInv_none {rel : List String} {rest visited : List (List String)}
    (hinv : WalkInv (rel :: rest) visited) : WalkInv rest (rel :: visited) := by
  obtain ⟨hA, hB, hC, hD⟩ := hinv
  have hrelrest : rel ∉ rest := (List.nodup_cons.1 hB).1
  refine ⟨?_, (List.nodup_cons.1 hB).2, ?_, ?_⟩
  · intro q1 h1 q2 h2 hp
    exact hA q1 (List.mem_cons_of_mem rel h1) q2 (List.mem_cons_of_mem rel h2) hp
  · intro q hq
    rw [List.mem_cons]
    rintro (hqr | hqv)
    · exact hrelrest (hqr ▸ hq)
    · exact hC q (List.mem_cons_of_mem rel hq) hqv
  · intro q hq p hqp hne
    rw [List.mem_cons]
    rintro (hpr | hpv)
    · subst hpr
      exact hne (hA q (List.mem_cons_of_mem p hq) p (List.mem_cons_self p rest) hqp)
    · exact hD q (List.mem_cons_of_mem rel hq) p hqp hne hpv

theorem walkInv_some (fs : RepoFS) (ign : List String) {rel : List String}
    {rest visited : List (List String)} {es : List String}
    (hinv : WalkInv (rel :: rest) visited) (hes : es.Nodup) :
    WalkInv ((pushedOf fs ign (rel :: visited) rel es).reverse ++ rest)
      (rel :: visited) := by
  obtain ⟨hA, hB, hC, hD⟩ := hinv
  have hrelrest : rel ∉ rest := (List.nodup_cons.1 hB).1
  have hmem_push : ∀ q ∈ (pushedOf fs ign (rel :: visited) rel es).reverse,
      ∃ e, e ∈ es ∧ q = rel ++ [e] ∧ joinPath q ∉ ign ∧ fs.isDir q = true ∧
        q ∉ rel :: visited := by
    intro q hq
    exact mem_pushedOf.1 (List.mem_reverse.1 hq)
  refine ⟨?_, ?_, ?_, ?_⟩
  · intro q1 h1 q2 h2 hp
    rcases List.mem_append.1 h1 with h1p | h1r
    · rcases hmem_push q1 h1p with ⟨e1, -, hq1, -, -, -⟩
      rcases List.mem_append.1 h2 with h2p | h2r
      · rcases hmem_push q2 h2p with ⟨e2, -, hq2, -, -, -⟩
        apply List.IsPrefix.eq_of_length hp
        rw [hq1, hq2]
        simp
      · exfalso
        have hr1 : rel <+: q1 := by
          rw [hq1]
          exact List.prefix_append rel [e1]
        have heq := hA rel (List.mem_cons_self rel rest) q2
          (List.mem_cons_of_mem rel h2r) (hr1.trans hp)
        exact hrelrest (heq ▸ h2r)
    · rcases List.mem_append.1 h2 with h2p | h2r
      · rcases hmem_push q2 h2p with ⟨e2, -, hq2, -, -, -⟩
        rcases prefix_snoc_cases (hq2 ▸ hp) with he | hpre
        · exact he.trans hq2.symm
        · exfalso
          have heq := hA q1 (List.mem_cons_of_mem rel h1r) rel
            (List.mem_cons_self rel rest) hpre
          exact hrelrest (heq ▸ h1r)
      · exact hA q1 (List.mem_cons_of_mem rel h1r) q2 (List.mem_cons_of_mem rel h2r) hp
  · rw [List.nodup_append]
    refine ⟨List.nodup_reverse.2 (nodup_pushedOf hes), (List.nodup_cons.1 hB).2, ?_⟩
    intro x hxp hxr
    rcases hmem_push x hxp with ⟨e, -, hx, -, -, -⟩
    have hrx : rel <+: x := by
      rw [hx]
      exact List.prefix_append rel [e]
    have heq := hA rel (List.mem_cons_self rel rest) x
      (List.mem_cons_of_mem rel hxr) hrx
    rw [hx] at heq
    exact snoc_length_absurd heq
  · intro q hq
    rcases List.mem_append.1 hq with hqp | hqr
    · rcases hmem_push q hqp with ⟨e, -, -, -, -, hnv⟩
      exact hnv
    · rw [List.mem_cons]
      rintro (hr | hv)
      · exact hrelrest (hr ▸ hqr)
      · exact hC q (List.mem_cons_of_mem rel hqr) hv
  · intro q hq p hqp hne
    rcases List.mem_append.1 hq with hqpu | hqr
    · rcases hmem_push q hqpu with ⟨e, -, hqe, -, -, -⟩
      rw [List.mem_cons]
      rintro (hpr | hpv)
      · subst hpr
        have hle := hqp.length_le
        rw [hqe] at hle
        simp at hle
      · have hrp : rel <+: p := by
          refine List.IsPrefix.trans ?_ hqp
          rw [hqe]
          exact List.prefix_append rel [e]
        have hrnep : rel ≠ p := by
          intro h
          have hle := hqp.length_le
          rw [hqe, ← h] at hle
          simp at hle
        exact hD rel (List.mem_cons_self rel rest) p hrp hrnep hpv
    · rw [List.mem_cons]
      rintro (hpr | hpv)
      · subst hpr
        exact hne (hA q (List.mem_cons_of_mem p hqr) p (List.mem_cons_self p rest) hqp)
      · exact hD q (List.mem_cons_of_mem rel hqr) p hqp hne hpv

/- The termination measure. -/

theorem filter_length_mono (U visited : List (List String)) (x : List String) :
    (U.filter (fun y => decide (y ∉ x :: visited))).length ≤
      (U.filter (fun y => decide (y ∉ visited))).length := by
  induction U with
  | nil => simp
  | cons a U ih =>
    simp only [List.filter_cons]
    by_cases hav : a ∈ visited
    · have h2 : (decide (a ∉ visited)) = false := by simp [hav]
      have h1 : (decide (a ∉ x :: visited)) = false := by simp [List.mem_cons, hav]
      rw [h1, h2]
      exact ih
    · have h2 : (decide (a ∉ visited)) = true := by simp [hav]
      rw [h2]
      by_cases h1c : a ∈ x :: visited
      · have h1 : (decide (a ∉ x :: visited)) = false := by simp_all
        rw [h1]
        simp only [List.length_cons]
        exact Nat.le_succ_of_le ih
      · have h1 : (decide (a ∉ x :: visited)) = true := by simp_all
        rw [h1]
        simp only [List.length_cons]
        exact Nat.succ_le_succ ih

theorem filter_length_lt (U visited : List (List String)) (x : List String)
    (hxU : x ∈ U) (hxv : x ∉ visited) :
    (U.filter (fun y => decide (y ∉ x :: visited))).length <
      (U.filter (fun y => decide (y ∉ visited))).length := by
  induction U with
  | nil => cases hxU
  | cons a U ih =>
    simp only [List.filter_cons]
    rcases List.mem_cons.1 hxU with rfl | haU
    · have h1 : (decide (x ∉ x :: visited)) = false := by simp
      have h2 : (decide (x ∉ visited)) = true := by simp [hxv]
      rw [h1, h2]
      simp only [List.length_cons]
      exact Nat.lt_succ_of_le (filter_length_mono U visited x)
    · by_cases hav : a ∈ x :: visited
      · have h1 : (decide (a ∉ x :: visited)) = false := by simp [hav]
        rw [h1]
        by_cases hav2 : a ∈ visited
        · have h2 : (decide (a ∉ visited)) = false := by simp [hav2]
          rw [h2]
          exact ih haU
        · have h2 : (decide (a ∉ visited)) = true := by simp [hav2]
          rw [h2]
          simp only [List.length_cons]
          exact Nat.lt_succ_of_le (Nat.le_of_lt (ih haU))
      · have h1 : (decide (a ∉ x :: visited)) = true := by simp [hav]
        have h2 : (decide (a ∉ visited)) = true := by
          simp only [List.mem_cons, not_or] at hav
          simp [hav.2]
        rw [h1, h2]
        simp only [List.length_cons]
        exact Nat.succ_lt_succ (ih haU)

theorem unvisitedCount_lt {U visited : List (List String)} {x : List String}
    (hxU : x ∈ U) (hxv : x ∉ visited) :
    unvisitedCount U (x :: visited) < unvisitedCount U visited := by
  unfold unvisitedCount
  exact filter_length_lt U visited x hxU hxv

theorem unvisitedCount_nil (U : List (List String)) :
    unvisitedCount U [] = U.length := by
  simp [unvisitedCount]

/-- The loop finishes whenever the fuel exceeds the number of not yet visited
    elements of a finite universe U that contains every queue element and is
    closed under pushable children: every pop strictly shrinks the set of
    unvisited universe elements. -/
theorem walkLoop_completes (fs : RepoFS) (ign : List String)
    (hen : entriesNodup fs) (U : List (List String))
    (hclosed : ∀ q ∈ U, ∀ es, fs.listing q = some es → ∀ e ∈ es,
      joinPath (q ++ [e]) ∉ ign → fs.isDir (q ++ [e]) = true → (q ++ [e]) ∈ U) :
    ∀ fuel queue visited, WalkInv queue visited → (∀ q ∈ queue, q ∈ U) →
      unvisitedCount U visited < fuel →
      (walkLoop fs ign fuel queue visited).2 = true := by
  intro fuel
  induction fuel with
  | zero =>
    intro queue visited _ _ h
    omega
  | succ n ih =>
    intro queue visited hinv hsub hcount
    cases queue with
    | nil => rw [walkLoop_nil]
    | cons rel rest =>
      have hrelU : rel ∈ U := hsub rel (List.mem_cons_self rel rest)
      have hrelv : rel ∉ visited := hinv.2.2.1 rel (List.mem_cons_self rel rest)
      have hlt : unvisitedCount U (rel :: visited) < unvisitedCount U visited :=
        unvisitedCount_lt hrelU hrelv
      cases hls : fs.listing rel with
      | none =>
        rw [walkLoop_succ_none fs ign n rel rest visited hls]
        exact ih rest (rel :: visited) (walkInv_none hinv)
          (fun q hq => hsub q (List.mem_cons_of_mem rel hq)) (by omega)
      | some es =>
        rw [walkLoop_succ_some fs ign n rel rest visited es hls]
        dsimp only
        apply ih
        · exact walkInv_some fs ign hinv (hen rel es hls)
        · intro q hq
          rcases List.mem_append.1 hq with hqp | hqr
          · rcases mem_pushedOf.1 (List.mem_reverse.1 hqp) with ⟨e, he, hqe, hig, hd, -⟩
            rw [hqe]
            exact hclosed rel hrelU es hls e he (hqe ▸ hig) (hqe ▸ hd)
          · exact hsub q (List.mem_cons_of_mem rel hqr)
        · omega

/-- C3 counterexample, auxiliary divergence lemma: on the symlinked
    filesystem cycFS, from any state whose queue holds one path no longer
    than every visited path, the loop never finishes — each pop pushes the
    strictly longer child path, which the visited set (which only ever holds
    shorter paths) cannot block. -/
theorem cycFS_no_finish :
    ∀ fuel (p : List String) (visited : List (List String)),
      (∀ q ∈ visited, q.length ≤ p.length) →
      (walkLoop cycFS [] fuel [p] visited).2 = false := by
  intro fuel
  induction fuel with
  | zero => intro p visited _; rfl
  | succ n ih =>
    intro p visited hlen
    have hls : cycFS.listing p = some ["a"] := rfl
    rw [walkLoop_succ_some cycFS [] n p [] visited ["a"] hls]
    dsimp only
    have hnv : (p ++ ["a"]) ∉ p :: visited := by
      rw [List.mem_cons]
      rintro (h | h)
      · exact snoc_length_absurd h.symm
      · have h2 := hlen (p ++ ["a"]) h
        simp at h2
    have hpush : pushedOf cycFS [] (p :: visited) p ["a"] = [p ++ ["a"]] := by
      simp [pushedOf, pushEntry, cycFS, hnv]
    rw [hpush]
    simp only [List.reverse_cons, List.reverse_nil, List.nil_append, List.append_nil]
    apply ih
    intro q hq
    rcases List.mem_cons.1 hq with rfl | hqv
    · simp
    · have h2 := hlen q hqv
      simp only [List.length_append, List.length_singleton]
      omega

/-- C3 counterexample.  cycFS models a finite directory inode graph (one
    real directory whose entry a is a link back to it), yet the walker's
    loop never finishes on it: the visited-set check, keyed on relative
    paths that grow at every re-entry, never prevents re-expanding the
    directory.  The claim's "including graphs where symlinks make a
    directory reachable again" is therefore false. -/
theorem c3_counterexample : ¬ walkTerminates cycFS [] := by
  rintro ⟨fuel, h⟩
  have hf := cycFS_no_finish fuel [] [] (by intro q hq; cases hq)
  unfold traverseFromRoot at h
  rw [hf] at h
  cases h

/-- C3 amended.  The walk terminates whenever the relative-path directory
    graph is finite: if a finite universe U of relative paths contains the
    root and is closed under listed, non-ignored directory children (and
    listings are duplicate-free, as os.listdir guarantees), then any fuel
    beyond the size of U completes the traversal.  (Without that
    finiteness — e.g. under symlink re-entry, where relative paths grow
    without bound — the loop need not terminate, and the visited-set check
    does not prevent this.) -/
theorem c3_termination_of_finite_graph (fs : RepoFS) (ign : List String)
    (U : List (List String)) (fuel : Nat) (hen : entriesNodup fs)
    (hroot : [] ∈ U)
    (hclosed : ∀ q ∈ U, ∀ es, fs.listing q = some es → ∀ e ∈ es,
      joinPath (q ++ [e]) ∉ ign → fs.isDir (q ++ [e]) = true → (q ++ [e]) ∈ U)
    (hfuel : U.length < fuel) :
    (traverseFromRoot fs ign fuel).2 = true := by
  apply walkLoop_completes fs ign hen U hclosed fuel [[]] [] walkInv_init
  · intro q hq
    have hq0 : q = [] := by simpa using hq
    rw [hq0]
    exact hroot
  · rw [unvisitedCount_nil]
    exact hfuel

theorem fsEmptyRoot_entriesNodup : entriesNodup fsEmptyRoot := by
  intro p es h
  simp only [fsEmptyRoot] at h
  split at h
  · cases h
    exact List.nodup_nil
  · cases h

/-- Witness for C3's amended statement: with universe [[]] (one directory,
    the root) and fuel 2 > 1, the traversal of fsEmptyRoot finishes. -/
theorem c3_witness : (traverseFromRoot fsEmptyRoot [] 2).2 = true :=
  c3_termination_of_finite_graph fsEmptyRoot [] [[]] 2 fsEmptyRoot_entriesNodup
    (by decide)
    (by
      intro q hq es hes e he hig hd
      have hq0 : q = [] := by simpa using hq
      subst hq0
      simp only [fsEmptyRoot] at hes
      rw [if_pos trivial] at hes
      cases hes
      cases he)
    (by decide)

/- Fuel irrelevance for finished runs. -/

theorem walkLoop_fuel_mono (fs : RepoFS) (ign : List String) :
    ∀ f k queue visited, (walkLoop fs ign f queue visited).2 = true →
      walkLoop fs ign (f + k) queue visited = walkLoop fs ign f queue visited := by
  intro f
  induction f with
  | zero =>
    intro k queue visited h
    cases queue with
    | nil => rw [walkLoop_nil, walkLoop_nil]
    | cons rel rest =>
      rw [walkLoop_zero] at h
      cases h
  | succ n ih =>
    intro k queue visited h
    cases queue with
    | nil => rw [walkLoop_nil, walkLoop_nil]
    | cons rel rest =>
      have hsk : n + 1 + k = (n + k) + 1 := by omega
      cases hls : fs.listing rel with
      | none =>
        rw [walkLoop_succ_none fs ign n rel rest visited hls] at h ⊢
        rw [hsk, walkLoop_succ_none fs ign (n + k) rel rest visited hls]
        exact ih k rest (rel :: visited) h
      | some es =>
        rw [walkLoop_succ_some fs ign n rel rest visited es hls] at h ⊢
        rw [hsk, walkLoop_succ_some fs ign (n + k) rel rest visited es hls]
        dsimp only at h ⊢
        rw [ih k _ _ h]

/-- C7.  Walker determinism: two independent invocations over the same
    filesystem and ignore list that both finish produce identical outputs —
    equal as lists (hence a fortiori the same set of relative paths),
    whatever iteration bounds sufficed for each. -/
theorem c7_walker_deterministic (fs : RepoFS) (ign : List String)
    (f1 f2 : Nat) (h1 : (traverseFromRoot fs ign f1).2 = true)
    (h2 : (traverseFromRoot fs ign f2).2 = true) :
    (traverseFromRoot fs ign f1).1 = (traverseFromRoot fs ign f2).1 := by
  unfold traverseFromRoot at h1 h2 ⊢
  rcases Nat.le_total f1 f2 with hle | hle
  · have hk : f2 = f1 + (f2 - f1) := by omega
    rw [hk, walkLoop_fuel_mono fs ign f1 (f2 - f1) [[]] [] h1]
  · have hk : f1 = f2 + (f1 - f2) := by omega
    rw [hk, walkLoop_fuel_mono fs ign f2 (f1 - f2) [[]] [] h2]

/-- Witness for C7 on the specification's worked example, with two different
    sufficient bounds. -/
theorem c7_witness :
    (traverseFromRoot exampleFS ["sub"] 3).1 = (traverseFromRoot exampleFS ["sub"] 5).1 :=
  c7_walker_deterministic exampleFS ["sub"] 3 5 (by decide) (by decide)

/- Output duplicate-freedom and parent-before-child ordering. -/

theorem out_dropLast_not_visited (fs : RepoFS) (ign : List String)
    (hen : entriesNodup fs) :
    ∀ fuel queue visited, WalkInv queue visited →
      ∀ p ∈ (walkLoop fs ign fuel queue visited).1, p.dropLast ∉ visited := by
  intro fuel
  induction fuel with
  | zero =>
    intro queue visited _ p hp
    cases queue with
    | nil => rw [walkLoop_nil] at hp; cases hp
    | cons rel rest => rw [walkLoop_zero] at hp; cases hp
  | succ n ih =>
    intro queue visited hinv p hp
    cases queue with
    | nil => rw [walkLoop_nil] at hp; cases hp
    | cons rel rest =>
      cases hls : fs.listing rel with
      | none =>
        rw [walkLoop_succ_none fs ign n rel rest visited hls] at hp
        intro hpv
        exact ih rest (rel :: visited) (walkInv_none hinv) p hp
          (List.mem_cons_of_mem rel hpv)
      | some es =>
        rw [walkLoop_succ_some fs ign n rel rest visited es hls] at hp
        dsimp only at hp
        rcases List.mem_append.1 hp with hem | hrec
        · rcases mem_emittedOf.1 hem with ⟨e, -, hpe, -, -⟩
          rw [hpe, dropLast_snoc]
          exact hinv.2.2.1 rel (List.mem_cons_self rel rest)
        · intro hpv
          exact ih _ (rel :: visited) (walkInv_some fs ign hinv (hen rel es hls))
            p hrec (List.mem_cons_of_mem rel hpv)

theorem out_nodup (fs : RepoFS) (ign : List String) (hen : entriesNodup fs) :
    ∀ fuel queue visited, WalkInv queue visited →
      ((walkLoop fs ign fuel queue visited).1).Nodup := by
  intro fuel
  induction fuel with
  | zero =>
    intro queue visited _
    cases queue with
    | nil => rw [walkLoop_nil]; exact List.nodup_nil
    | cons rel rest => rw [walkLoop_zero]; exact List.nodup_nil
  | succ n ih =>
    intro queue visited hinv
    cases queue with
    | nil => rw [walkLoop_nil]; exact List.nodup_nil
    | cons rel rest =>
      cases hls : fs.listing rel with
      | none =>
        rw [walkLoop_succ_none fs ign n rel rest visited hls]
        exact ih rest (rel :: visited) (walkInv_none hinv)
      | some es =>
        rw [walkLoop_succ_some fs ign n rel rest visited es hls]
        dsimp only
        rw [List.nodup_append]
        refine ⟨nodup_emittedOf (hen rel es hls),
          ih _ (rel :: visited) (walkInv_some fs ign hinv (hen rel es hls)), ?_⟩
        intro x hxem hxrec
        rcases mem_emittedOf.1 hxem with ⟨e, -, hxe, -, -⟩
        have hnv := out_dropLast_not_visited fs ign hen n _ (rel :: visited)
          (walkInv_some fs ign hinv (hen rel es hls)) x hxrec
        apply hnv
        rw [hxe, dropLast_snoc]
        exact List.mem_cons_self rel visited

/-- Within one run, every emitted path's strict ancestors are either emitted
    earlier in the same output or are ancestors of a path already on the
    queue when the run started. -/
theorem emit_order (fs : RepoFS) (ign : List String) :
    ∀ fuel queue visited p, p ∈ (walkLoop fs ign fuel queue visited).1 →
      ∀ q, q <+: p → q ≠ p →
        (∃ l1 l2, (walkLoop fs ign fuel queue visited).1 = l1 ++ l2 ∧
          q ∈ l1 ∧ p ∈ l2) ∨
        (∃ r, r ∈ queue ∧ q <+: r) := by
  intro fuel
  induction fuel with
  | zero =>
    intro queue visited p hp
    cases queue with
    | nil => rw [walkLoop_nil] at hp; cases hp
    | cons rel rest => rw [walkLoop_zero] at hp; cases hp
  | succ n ih =>
    intro queue visited p hp q hq hne
    cases queue with
    | nil => rw [walkLoop_nil] at hp; cases hp
    | cons rel rest =>
      cases hls : fs.listing rel with
      | none =>
        rw [walkLoop_succ_none fs ign n rel rest visited hls] at hp ⊢
        rcases ih rest (rel :: visited) p hp q hq hne with
          ⟨l1, l2, heq, hql1, hpl2⟩ | ⟨r, hr, hqr⟩
        · exact Or.inl ⟨l1, l2, heq, hql1, hpl2⟩
        · exact Or.inr ⟨r, List.mem_cons_of_mem rel hr, hqr⟩
      | some es =>
        rw [walkLoop_succ_some fs ign n rel rest visited es hls] at hp ⊢
        dsimp only at hp ⊢
        rcases List.mem_append.1 hp with hpem | hpout
        · rcases mem_emittedOf.1 hpem with ⟨e, -, hpe, -, -⟩
          rcases prefix_snoc_cases (hpe ▸ hq) with he | hpre
          · exact absurd (by rw [hpe]; exact he) hne
          · exact Or.inr ⟨rel, List.mem_cons_self rel rest, hpre⟩
        · rcases ih _ (rel :: visited) p hpout q hq hne with
            ⟨l1, l2, heq, hql1, hpl2⟩ | ⟨r, hr, hqr⟩
          · left
            refine ⟨emittedOf fs ign (rel :: visited) rel es ++ l1, l2, ?_, ?_, hpl2⟩
            · rw [heq, List.append_assoc]
            · exact List.mem_append.2 (Or.inr hql1)
          · rcases List.mem_append.1 hr with hrp | hrr
            · have hrem : r ∈ emittedOf fs ign (rel :: visited) rel es :=
                pushedOf_subset_emittedOf (List.mem_reverse.1 hrp)
              rcases mem_pushedOf.1 (List.mem_reverse.1 hrp) with ⟨e', -, hre, -, -, -⟩
              rcases prefix_snoc_cases (hre ▸ hqr) with he | hpre
              · left
                refine ⟨emittedOf fs ign (rel :: visited) rel es, _, rfl, ?_, hpout⟩
                rw [he, ← hre]
                exact hrem
              · exact Or.inr ⟨rel, List.mem_cons_self rel rest, hpre⟩
            · exact Or.inr ⟨r, List.mem_cons_of_mem rel hrr, hqr⟩

theorem firstIdx_append_lt_left {q : List String} {l1 l2 : List (List String)}
    (hq : q ∈ l1) : firstIdx q (l1 ++ l2) < l1.length := by
  induction l1 with
  | nil => cases hq
  | cons a l1 ih =>
    rw [List.cons_append]
    unfold firstIdx
    by_cases hqa : a = q
    · rw [if_pos hqa]
      simp
    · rw [if_neg hqa]
      have hql1 : q ∈ l1 := by
        rcases List.mem_cons.1 hq with h | h
        · exact absurd h.symm hqa
        · exact h
      simp only [List.length_cons]
      exact Nat.succ_lt_succ (ih hql1)

theorem firstIdx_append_ge {p : List String} {l1 l2 : List (List String)}
    (hp : p ∉ l1) : l1.length ≤ firstIdx p (l1 ++ l2) := by
  induction l1 with
  | nil => simp
  | cons a l1 ih =>
    rw [List.cons_append]
    unfold firstIdx
    have hap : ¬ a = p := by
      intro h
      exact hp (h ▸ List.mem_cons_self a l1)
    rw [if_neg hap]
    simp only [List.length_cons]
    exact Nat.succ_le_succ (ih (fun h => hp (List.mem_cons_of_mem a h)))

/-- C10.  Parent-before-child emission: in a traversal from the initial
    state (with duplicate-free listings), every emitted path p strictly
    inside the subtree of a non-root path q is preceded in the output by q
    itself: q is emitted, and its (first) position is strictly earlier than
    p's. -/
theorem c10_parent_before_child (fs : RepoFS) (ign : List String) (fuel : Nat)
    (hen : entriesNodup fs) (p q : List String)
    (hp : p ∈ (traverseFromRoot fs ign fuel).1)
    (hpre : q <+: p) (hne : q ≠ p) (hq0 : q ≠ []) :
    q ∈ (traverseFromRoot fs ign fuel).1 ∧
    firstIdx q (traverseFromRoot fs ign fuel).1 <
      firstIdx p (traverseFromRoot fs ign fuel).1 := by
  rcases emit_order fs ign fuel [[]] [] p hp q hpre hne with
    ⟨l1, l2, heq, hql1, hpl2⟩ | ⟨r, hr, hqr⟩
  · have hnodup : ((traverseFromRoot fs ign fuel).1).Nodup :=
      out_nodup fs ign hen fuel [[]] [] walkInv_init
    have hqout : q ∈ (traverseFromRoot fs ign fuel).1 := by
      unfold traverseFromRoot
      rw [heq]
      exact List.mem_append.2 (Or.inl hql1)
    refine ⟨hqout, ?_⟩
    unfold traverseFromRoot at hnodup ⊢
    rw [heq] at hnodup ⊢
    have hpnotl1 : p ∉ l1 := by
      intro hpl1
      exact (List.nodup_append.1 hnodup).2.2 hpl1 hpl2
    exact Nat.lt_of_lt_of_le (firstIdx_append_lt_left hql1) (firstIdx_append_ge hpnotl1)
  · have hr0 : r = [] := by simpa using hr
    rw [hr0] at hqr
    exact absurd (List.prefix_nil.1 hqr) hq0

theorem exampleFS_entriesNodup : entriesNodup exampleFS := by
  intro p es h
  simp only [exampleFS] at h
  split at h
  · cases h
    decide
  · split at h
    · cases h
      decide
    · cases h

/-- Witness for C10: on the worked example without ignore entries, the
    directory sub is emitted before sub/c.txt. -/
theorem c10_witness :
    ["sub"] ∈ (traverseFromRoot exampleFS [] 3).1 ∧
    firstIdx ["sub"] (traverseFromRoot exampleFS [] 3).1 <
      firstIdx ["sub", "c.txt"] (traverseFromRoot exampleFS [] 3).1 :=
  c10_parent_before_child exampleFS [] 3 exampleFS_entriesNodup
    ["sub", "c.txt"] ["sub"] (by decide) (by decide) (by decide) (by decide)

/- Completeness of the walker against the reachability specification. -/

theorem reachFrom_first {fs : RepoFS} {ign : List String} {r q : List String}
    (h : ReachFrom fs ign r q) :
    q = r ∨ ∃ es e, fs.listing r = some es ∧ e ∈ es ∧
      joinPath (r ++ [e]) ∉ ign ∧ fs.isDir (r ++ [e]) = true ∧
      ReachFrom fs ign (r ++ [e]) q := by
  induction h with
  | refl => exact Or.inl rfl
  | @step q' es e hre hls hmem hign hd ih =>
    rcases ih with heq | ⟨es0, e0, hls0, hm0, hig0, hd0, hrf⟩
    · subst heq
      exact Or.inr ⟨es, e, hls, hmem, hign, hd, ReachFrom.refl _⟩
    · exact Or.inr ⟨es0, e0, hls0, hm0, hig0, hd0,
        ReachFrom.step hrf hls hmem hign hd⟩

/-- In a run that finishes, every listed, non-ignored entry of a directory
    reachable from a queue element is emitted. -/
theorem walkLoop_complete_aux (fs : RepoFS) (ign : List String)
    (hen : entriesNodup fs) :
    ∀ fuel queue visited, WalkInv queue visited →
      (walkLoop fs ign fuel queue visited).2 = true →
      ∀ r ∈ queue, ∀ q, ReachFrom fs ign r q →
        ∀ es e, fs.listing q = some es → e ∈ es → joinPath (q ++ [e]) ∉ ign →
          (q ++ [e]) ∈ (walkLoop fs ign fuel queue visited).1 := by
  intro fuel
  induction fuel with
  | zero =>
    intro queue visited _ hc
    cases queue with
    | nil =>
      intro r hr
      cases hr
    | cons a rest =>
      rw [walkLoop_zero] at hc
      cases hc
  | succ n ih =>
    intro queue visited hinv hc r hr q hrf es e hles hee hige
    cases queue with
    | nil => cases hr
    | cons rel rest =>
      cases hls : fs.listing rel with
      | none =>
        rw [walkLoop_succ_none fs ign n rel rest visited hls] at hc ⊢
        rcases List.mem_cons.1 hr with rfl | hrrest
        · rcases reachFrom_first hrf with hqr | ⟨es0, e0, hls0, -, -, -, -⟩
          · rw [hqr] at hles
            rw [hles] at hls
            cases hls
          · rw [hls0] at hls
            cases hls
        · exact ih rest (rel :: visited) (walkInv_none hinv) hc r hrrest
            q hrf es e hles hee hige
      | some es1 =>
        rw [walkLoop_succ_some fs ign n rel rest visited es1 hls] at hc ⊢
        dsimp only at hc ⊢
        rcases List.mem_cons.1 hr with rfl | hrrest
        · rcases reachFrom_first hrf with hqr | ⟨es0, e0, hls0, hm0, hig0, hd0, hrf2⟩
          · subst hqr
            rw [hles] at hls
            cases hls
            apply List.mem_append.2
            left
            apply mem_emittedOf.2
            refine ⟨e, hee, rfl, hige, ?_⟩
            intro _ hmemv
            rcases List.mem_cons.1 hmemv with heq | hv
            · exact snoc_length_absurd heq.symm
            · exact hinv.2.2.2 q (List.mem_cons_self q rest) (q ++ [e])
                (List.prefix_append q [e]) (fun hh => snoc_length_absurd hh) hv
          · rw [hls0] at hls
            cases hls
            have hpush : (r ++ [e0]) ∈
                (pushedOf fs ign (r :: visited) r es1).reverse := by
              rw [List.mem_reverse]
              apply mem_pushedOf.2
              refine ⟨e0, hm0, rfl, hig0, hd0, ?_⟩
              intro hmemv
              rcases List.mem_cons.1 hmemv with heq | hv
              · exact snoc_length_absurd heq.symm
              · exact hinv.2.2.2 r (List.mem_cons_self r rest) (r ++ [e0])
                  (List.prefix_append r [e0]) (fun hh => snoc_length_absurd hh) hv
            apply List.mem_append.2
            right
            exact ih _ (r :: visited)
              (walkInv_some fs ign hinv (hen r es1 hls0)) hc
              (r ++ [e0]) (List.mem_append.2 (Or.inl hpush))
              q hrf2 es e hles hee hige
        · apply List.mem_append.2
          right
          exact ih _ (rel :: visited)
            (walkInv_some fs ign hinv (hen rel es1 hls)) hc
            r (List.mem_append.2 (Or.inr hrrest)) q hrf es e hles hee hige

/-- For runs that finish, the emitted paths are exactly the listed,
    non-ignored entries of reachable directories. -/
theorem emitted_iff_spec (fs : RepoFS) (ign : List String) (fuel : Nat)
    (hen : entriesNodup fs) (hc : (traverseFromRoot fs ign fuel).2 = true)
    (p : List String) :
    p ∈ (traverseFromRoot fs ign fuel).1 ↔ EmitSpec fs ign p := by
  constructor
  · exact traverse_sound fs ign fuel p
  · rintro ⟨q, es, e, hre, hls, he, hpe, hpig⟩
    subst hpe
    exact walkLoop_complete_aux fs ign hen fuel [[]] [] walkInv_init hc
      [] (by simp) q hre es e hls he hpig

/- Transfer of reachability between filesystems that differ only at one
   directory. -/

theorem reach_transfer (fsA fsB : RepoFS) (ign : List String) (d : List String)
    (hdir : ∀ p, fsA.isDir p = fsB.isDir p)
    (hagree : ∀ p, p ≠ d → fsA.listing p = fsB.listing p) :
    ∀ q, Reach fsA ign q → ¬ (d <+: q ∧ q ≠ d) → Reach fsB ign q := by
  intro q h
  induction h with
  | refl =>
    intro _
    exact ReachFrom.refl []
  | @step q' es e hre hls hmem hign hd ih =>
    intro hcond
    have hq'ne : q' ≠ d := by
      intro h
      apply hcond
      rw [← h]
      exact ⟨List.prefix_append q' [e], fun hh => snoc_length_absurd hh.symm⟩
    have hcond' : ¬ (d <+: q' ∧ q' ≠ d) := by
      rintro ⟨h1, h2⟩
      apply hcond
      constructor
      · exact h1.trans (List.prefix_append q' [e])
      · intro hh
        have hl := h1.length_le
        rw [← hh] at hl
        simp only [List.length_append, List.length_singleton] at hl
        omega
    exact ReachFrom.step (ih hcond')
      (by rw [← hagree q' hq'ne]; exact hls) hmem hign (by rw [← hdir]; exact hd)

theorem emitspec_transfer (fsA fsB : RepoFS) (ign : List String)
    (d : List String) (hdir : ∀ p, fsA.isDir p = fsB.isDir p)
    (hagree : ∀ p, p ≠ d → fsA.listing p = fsB.listing p)
    (p : List String) (hcond : ¬ (d <+: p ∧ p ≠ d))
    (h : EmitSpec fsA ign p)
    (hqd : ∀ q es e, p = q ++ [e] → fsA.listing q = some es → q = d → False) :
    EmitSpec fsB ign p := by
  rcases h with ⟨q, es, e, hre, hls, he, hpe, hpig⟩
  have hqne : q ≠ d := fun hh => hqd q es e hpe hls hh
  have hqcond : ¬ (d <+: q ∧ q ≠ d) := by
    rintro ⟨h1, h2⟩
    apply hcond
    constructor
    · rw [hpe]
      exact h1.trans (List.prefix_append q [e])
    · rw [hpe]
      intro hh
      have hl := h1.length_le
      rw [← hh] at hl
      simp only [List.length_append, List.length_singleton] at hl
      omega
  refine ⟨q, es, e, reach_transfer fsA fsB ign d hdir hagree q hre hqcond,
    ?_, he, hpe, hpig⟩
  rw [← hagree q hqne]
  exact hls

/-- C8.  A directory d whose listing fails with a permissions error is
    skipped without aborting: (first conjunct) nothing strictly inside d's
    subtree is ever emitted; (second conjunct) outside d's subtree the
    traversal is unaffected — every path not strictly inside d, including
    every path in sibling directories, is emitted if and only if it is
    emitted on the filesystem where listing d succeeds, both runs having
    finished. -/
theorem c8_permission_error_skipped (fs1 fs2 : RepoFS) (ign : List String)
    (d : List String) (f1 f2 : Nat)
    (hperm : fs1.listing d = none)
    (hagree : ∀ p, p ≠ d → fs1.listing p = fs2.listing p)
    (hdir : ∀ p, fs1.isDir p = fs2.isDir p)
    (hen1 : entriesNodup fs1) (hen2 : entriesNodup fs2)
    (h1 : (traverseFromRoot fs1 ign f1).2 = true)
    (h2 : (traverseFromRoot fs2 ign f2).2 = true)
    (p : List String) :
    (p ∈ (traverseFromRoot fs1 ign f1).1 → ¬ (d <+: p ∧ p ≠ d)) ∧
    (¬ (d <+: p ∧ p ≠ d) →
      (p ∈ (traverseFromRoot fs1 ign f1).1 ↔
        p ∈ (traverseFromRoot fs2 ign f2).1)) := by
  constructor
  · intro hp hand
    rcases hand with ⟨hdp, hpd⟩
    rcases traverse_sound fs1 ign f1 p hp with ⟨q, es, e, hre, hls, hee, hpe, hpig⟩
    rcases prefix_snoc_cases (hpe ▸ hdp) with hdq | hdq
    · apply hpd
      rw [hpe]
      exact hdq.symm
    · by_cases hdq2 : d = q
      · rw [hdq2, hls] at hperm
        cases hperm
      · rcases reach_listed hre d hdq hdq2 with ⟨es0, hls0⟩
        rw [hperm] at hls0
        cases hls0
  · intro hcond
    rw [emitted_iff_spec fs1 ign f1 hen1 h1 p, emitted_iff_spec fs2 ign f2 hen2 h2 p]
    constructor
    · intro h
      apply emitspec_transfer fs1 fs2 ign d hdir hagree p hcond h
      intro q es e hpe hlsq hqeq
      rw [hqeq, hperm] at hlsq
      cases hlsq
    · intro h
      apply emitspec_transfer fs2 fs1 ign d (fun p2 => (hdir p2).symm)
        (fun p2 hp2 => (hagree p2 hp2).symm) p hcond h
      intro q es e hpe hlsq hqeq
      apply hcond
      rw [hpe, hqeq]
      exact ⟨List.prefix_append d [e], fun hh => snoc_length_absurd hh.symm⟩

theorem fsPerm_entriesNodup : entriesNodup fsPerm := by
  intro p es h
  simp only [fsPerm] at h
  split at h
  · cases h
  · split at h
    · cases h
      decide
    · split at h
      · cases h
        decide
      · cases h

theorem fsPermOk_entriesNodup : entriesNodup fsPermOk := by
  intro p es h
  simp only [fsPermOk] at h
  split at h
  · cases h
    decide
  · split at h
    · cases h
      decide
    · split at h
      · cases h
        decide
      · cases h

/-- Witness for C8: s/x.txt, a path in the sibling directory of the failing
    d, is emitted on both the failing and the repaired filesystem. -/
theorem c8_witness :
    (["s", "x.txt"] ∈ (traverseFromRoot fsPerm [] 4).1 →
      ¬ (["d"] <+: ["s", "x.txt"] ∧ ["s", "x.txt"] ≠ ["d"])) ∧
    (¬ (["d"] <+: ["s", "x.txt"] ∧ ["s", "x.txt"] ≠ ["d"]) →
      (["s", "x.txt"] ∈ (traverseFromRoot fsPerm [] 4).1 ↔
        ["s", "x.txt"] ∈ (traverseFromRoot fsPermOk [] 4).1)) :=
  c8_permission_error_skipped fsPerm fsPermOk [] ["d"] 4 4
    rfl
    (by
      intro p hp
      simp only [fsPerm, fsPermOk]
      rw [if_neg hp, if_neg hp])
    (fun _ => rfl)
    fsPerm_entriesNodup fsPermOk_entriesNodup
    (by decide) (by decide) ["s", "x.txt"]
